import Mathlib

/-!
Verification development for the tomeus browser application.

The embedding models the client-side logic of the repository:
* `getWrappedLines` — greedy word wrap (`src/unnamed/part_003`, lines 14–40);
* `drawTextAndFit` — font-size search and text layout (`src/unnamed/part_003`,
  lines 43–98);
* `toPixelRect`, `renderBlock`, `exportOps` — the export path of
  `handleDownload` (`src/unnamed/part_003`, lines 146–201);
* `handleMouseEnterStyle` — popover placement (`src/unnamed/part_002`);
* `translateValidate` — response validation (`src/services/geminiService.ts`);
* `downloadFileName` — export filename derivation.

JavaScript numbers are modelled as rationals (`ℚ`); the canvas text-measuring
function `ctx.measureText` is an arbitrary parameter, of type `String → ℚ`
for a fixed font, and `Int → String → ℚ` where the routine changes the font
size before measuring.  JavaScript strings are modelled as `String`.
-/

namespace Tomeus

/-- Model of the JavaScript `text.split(' ')` on the character list:
splitting on every single space, keeping empty fragments
(`"" ↦ [""]`, `"a  b" ↦ ["a", "", "b"]`). -/
def splitCh : List Char → List (List Char)
  | [] => [[]]
  | c :: cs =>
    if c = ' ' then [] :: splitCh cs
    else
      match splitCh cs with
      | [] => [[c]]
      | w :: ws => (c :: w) :: ws

/-- The `text.split(' ')` call of the source, producing strings. -/
def splitSpaces (s : String) : List String :=
  (splitCh s.data).map List.asString

/-- Joining a list of strings with single spaces (used to state content
preservation; `sjoin [a, b, c] = a ++ " " ++ b ++ " " ++ c`). -/
def sjoin : List String → String
  | [] => ""
  | [x] => x
  | x :: y :: xs => x ++ " " ++ sjoin (y :: xs)

/-- One iteration of the word loop of `getWrappedLines`
(`src/unnamed/part_003`, lines 24–35): the accumulator is the pair
(committed lines, current line); `testLine` is the current line extended by
the word, and it is accepted when its measured width is strictly below
`maxWidth` or the current line is empty. -/
def wrapStep (m : String → ℚ) (maxWidth : ℚ) (acc : List String × String)
    (word : String) : List String × String :=
  let testLine := if acc.2 = "" then word else acc.2 ++ " " ++ word
  if m testLine < maxWidth ∨ acc.2 = "" then (acc.1, testLine)
  else (acc.1 ++ [acc.2], word)

/-- Committing the non-empty trailing line (`if (currentLine) lines.push`). -/
def flushLines (acc : List String × String) : List String :=
  if acc.2 = "" then acc.1 else acc.1 ++ [acc.2]

/-- Function `getWrappedLines(ctx, text, maxWidth)` from `src/unnamed/part_003`,
lines 14–40.  `m` stands for `ctx.measureText` at the current font. -/
def getWrappedLines (m : String → ℚ) (text : String) (maxWidth : ℚ) :
    List String :=
  if text = "" then []
  else flushLines ((splitSpaces text).foldl (wrapStep m maxWidth) ([], ""))

/-- Character-level join with single spaces, inverse of `splitCh`. -/
def joinCh : List (List Char) → List Char
  | [] => []
  | [w] => w
  | w :: v :: ws => w ++ ' ' :: joinCh (v :: ws)

/-! ### A word at least as wide as the limit, under a monotone measure,
gets a line of its own -/

/-- Measured width is monotone under concatenation on either side (true of
real canvas text measurement, not of an arbitrary function). -/
def MonoMeasure (m : String → ℚ) : Prop :=
  ∀ a b : String, m a ≤ m (a ++ b) ∧ m b ≤ m (a ++ b)

/-! ### The text-fitting engine (`drawTextAndFit`) -/

/-- The fit test for one candidate font size (`src/unnamed/part_003`,
lines 54–59): set the font, take `lineHeight = fontSize * 1.2`
(`1.2 = 6/5` exactly, the float literal idealized as a rational), wrap
against `width - 4`, and test `lines.length * lineHeight <= height`. -/
def fitsAt (m : Int → String → ℚ) (text : String) (width height : ℚ)
    (fontSize : Int) : Prop :=
  ((getWrappedLines (m fontSize) text (width - 4)).length : ℚ) *
      ((fontSize : ℚ) * (6 / 5)) ≤ height

instance (m : Int → String → ℚ) (text : String) (width height : ℚ)
    (fontSize : Int) : Decidable (fitsAt m text width height fontSize) :=
  inferInstanceAs (Decidable (_ ≤ _))

/-- The `while (fontSize >= 8)` search of `drawTextAndFit`
(`src/unnamed/part_003`, lines 53–76): try the candidate, return it if it
fits, otherwise retry with `fontSize - 1`; the loop exits with no result
once `fontSize < 8`.  Since the candidate decreases by one each round,
exactly `(fontSize - 7).toNat` rounds can run; passing that number as a
structural fuel argument makes the recursion structural (`fitFrom` below
supplies it). -/
def fitFromAux (m : Int → String → ℚ) (text : String) (width height : ℚ) :
    ℕ → Int → Option Int
  | 0, _ => none
  | fuel + 1, fontSize =>
    if 8 ≤ fontSize then
      if fitsAt m text width height fontSize then some fontSize
      else fitFromAux m text width height fuel (fontSize - 1)
    else none

/-- The font-size search started at a given candidate. -/
def fitFrom (m : Int → String → ℚ) (text : String) (width height : ℚ)
    (fontSize : Int) : Option Int :=
  fitFromAux m text width height (fontSize - 7).toNat fontSize

/-- One drawn line: the string passed to `fillText` with its coordinates. -/
structure DrawnLine where
  text : String
  startX : ℚ
  drawY : ℚ
deriving DecidableEq

/-- Everything `drawTextAndFit` paints: the font size actually used, whether
the fallback clip to the target rectangle is active, and the drawn lines. -/
structure FitResult where
  fontSize : Int
  clipped : Bool
  drawn : List DrawnLine
deriving DecidableEq

/-- Per-line draw positions, shared by the fit branch (lines 66–71) and the
fallback branch (lines 90–95) of the source: each line `i` is drawn at
`startX = x + (width - lineWidth)/2` and — as the source is written — at
vertical coordinate `y + i * lineHeight` (the computed centering offset
`startY` is never passed to `fillText`). -/
def layoutLinesFrom (m : String → ℚ) (x y width lineHeight : ℚ) :
    ℕ → List String → List DrawnLine
  | _, [] => []
  | i, line :: rest =>
    ⟨line, x + (width - m line) / 2, y + (i : ℚ) * lineHeight⟩ ::
      layoutLinesFrom m x y width lineHeight (i + 1) rest

def layoutLines (m : String → ℚ) (lines : List String)
    (x y width lineHeight : ℚ) : List DrawnLine :=
  layoutLinesFrom m x y width lineHeight 0 lines

/-- Function `drawTextAndFit(ctx, text, x, y, width, height)` from
`src/unnamed/part_003`, lines 43–98.  The initial candidate font size is
`Math.floor(height / 2)`; if no candidate down to 8 fits, the fallback
draws at font size 8 with clipping to the rectangle. -/
def drawTextAndFit (m : Int → String → ℚ) (text : String)
    (x y width height : ℚ) : FitResult :=
  match fitFrom m text width height ⌊height / 2⌋ with
  | some fontSize =>
    ⟨fontSize, false,
      layoutLines (m fontSize) (getWrappedLines (m fontSize) text (width - 4))
        x y width ((fontSize : ℚ) * (6 / 5))⟩
  | none =>
    ⟨8, true,
      layoutLines (m 8) (getWrappedLines (m 8) text (width - 4))
        x y width ((8 : ℚ) * (6 / 5))⟩

/-! ### Geometry and the export path (`handleDownload`) -/

/-- Structure `BoundingBox` from `src/unnamed/part_000`: percentages of the source
image dimensions. -/
structure BoundingBox where
  x : ℚ
  y : ℚ
  width : ℚ
  height : ℚ
deriving DecidableEq

/-- Structure `TranslatedBlock` from `src/unnamed/part_000`. -/
structure TranslatedBlockE where
  originalText : String
  translatedText : String
  boundingBox : BoundingBox
deriving DecidableEq

/-- A pixel-space rectangle. -/
structure PixelRect where
  x : ℚ
  y : ℚ
  width : ℚ
  height : ℚ
deriving DecidableEq

/-- Percentage-to-pixel conversion of `handleDownload`
(`src/unnamed/part_003`, lines 170–173):
`x = (boundingBox.x / 100) * canvas.width` and analogously, against the
reference (native canvas) dimensions. -/
def toPixelRect (b : BoundingBox) (refWidth refHeight : ℚ) : PixelRect :=
  ⟨b.x / 100 * refWidth, b.y / 100 * refHeight,
    b.width / 100 * refWidth, b.height / 100 * refHeight⟩

/-- One canvas drawing command issued by the export path. -/
inductive DrawOp where
  | fillRect (color : String) (x y width height : ℚ)
  | fillText (text : String) (x y : ℚ) (clipped : Bool)
deriving DecidableEq

/-- The body of the `translationResult.translationBlocks.forEach` loop in
`handleDownload` (`src/unnamed/part_003`, lines 168–181): convert the
percentage box to native pixels, skip entirely when the pixel width or
height is below 1, otherwise fill the rectangle with the background color
and draw the fitted text. -/
def renderBlock (m : Int → String → ℚ) (canvasWidth canvasHeight : ℚ)
    (block : TranslatedBlockE) : List DrawOp :=
  let r := toPixelRect block.boundingBox canvasWidth canvasHeight
  if r.width < 1 ∨ r.height < 1 then []
  else
    let fit := drawTextAndFit m block.translatedText r.x r.y r.width r.height
    DrawOp.fillRect ("#111827") r.x r.y r.width r.height ::
      fit.drawn.map fun d => DrawOp.fillText d.text d.startX d.drawY fit.clipped

/-- All drawing commands of the export loop, in array order. -/
def exportOps (m : Int → String → ℚ) (canvasWidth canvasHeight : ℚ)
    (blocks : List TranslatedBlockE) : List DrawOp :=
  (blocks.map (renderBlock m canvasWidth canvasHeight)).flatten

/-! ### Popover placement (`handleMouseEnter`, `src/unnamed/part_002`) -/

/-- The CSS transform applied to the popover: 8 px down, or up by its own
height plus 8 px (`translateY(-100%) translateY(-8px)`). -/
inductive PopTransform where
  | down8
  | upOwnHeightPlus8
deriving DecidableEq

/-- The position style computed by `handleMouseEnter`: `top` in percent
units plus the transform. -/
structure PopoverStyle where
  top : ℚ
  transform : PopTransform
deriving DecidableEq

/-- Handler `handleMouseEnter` (`src/unnamed/part_002`, lines 50–68): the default
style anchors below the block (`top = y + height`, 8 px down); when
`y + height > 70` the style is overwritten to anchor above
(`top = y`, translated up by its own height plus 8 px). -/
def handleMouseEnterStyle (b : BoundingBox) : PopoverStyle :=
  if b.y + b.height > 70 then ⟨b.y, PopTransform.upOwnHeightPlus8⟩
  else ⟨b.y + b.height, PopTransform.down8⟩

/-! ### Export filename (`handleDownload`, `src/unnamed/part_003`,
lines 183–185) -/

/-- Index of the last `'.'` in a character list, if any (the JavaScript
`lastIndexOf('.')` (found case). -/
def lastDotPos : List Char → Option ℕ
  | [] => none
  | c :: cs =>
    match lastDotPos cs with
    | some i => some (i + 1)
    | none => if c = '.' then some 0 else none

/-- The expression `file.name.substring(0, file.name.lastIndexOf('.'))` followed by the
fixed suffix: JavaScript `lastIndexOf` yields `-1` when there is no dot,
and `substring` clamps a negative end to `0`, producing the empty stem. -/
def downloadFileName (name : String) : String :=
  (match lastDotPos name.data with
    | some i => List.asString (name.data.take i)
    | none => "") ++ ("-translated.png")

/-- Modelled from the spec: the "original filename without its extension"
(the stem): the part before the last dot when the name contains a dot,
otherwise the whole name. -/
def filenameStem (name : String) : String :=
  if ('.') ∈ name.data then
    List.asString ((name.data.reverse.dropWhile fun c => !(c = '.')).tail.reverse)
  else name

/-! ### Response validation (`translateImageContent`,
`src/services/geminiService.ts`, lines 101–134) -/

/-- Parsed JSON values (the result of `JSON.parse`). -/
inductive Json where
  | null
  | bool (b : Bool)
  | num (q : ℚ)
  | str (s : String)
  | arr (elems : List Json)
  | obj (fields : List (String × Json))

/-- Property access `j[key]` on a parsed value: named fields exist only on
objects (`undefined`, i.e. `none`, otherwise). -/
def getField : Json → String → Option Json
  | Json.obj fields, key => fields.lookup key
  | _, _ => none

/-- The JavaScript `key in j` test on parsed JSON values. -/
def hasField (j : Json) (key : String) : Bool :=
  (getField j key).isSome

/-- The test `typeof j === 'object'` for a parsed JSON value: true for objects,
arrays and `null`. -/
def jsTypeofObject : Json → Bool
  | Json.null => true
  | Json.arr _ => true
  | Json.obj _ => true
  | _ => false

def isNullJson : Json → Bool
  | Json.null => true
  | _ => false

def isArrayJson : Json → Bool
  | Json.arr _ => true
  | _ => false

def isStringJson : Json → Bool
  | Json.str _ => true
  | _ => false

/-- The top-level structure check of `translateImageContent` (line 104):
`typeof parsedJson !== 'object' || parsedJson === null ||
!('translationBlocks' in parsedJson) || !Array.isArray(...) ||
!('formattedTranslation' in parsedJson) || typeof ... !== 'string'`,
negated. -/
def respStructOk (j : Json) : Bool :=
  jsTypeofObject j && !(isNullJson j) &&
    hasField j ("translationBlocks") &&
    (match getField j ("translationBlocks") with
      | some t => isArrayJson t
      | none => false) &&
    hasField j ("formattedTranslation") &&
    (match getField j ("formattedTranslation") with
      | some t => isStringJson t
      | none => false)

/-- The per-block check of `translateImageContent` (lines 109–121): the
`blocks.every(...)` predicate.  Note that for the four bounding-box fields
only *presence* (`'x' in item.boundingBox` etc.) is tested, not that the
values are numbers. -/
def validBlockItem (item : Json) : Bool :=
  jsTypeofObject item && !(isNullJson item) &&
    hasField item ("originalText") &&
    hasField item ("translatedText") &&
    hasField item ("boundingBox") &&
    (match getField item ("boundingBox") with
      | some bb =>
        jsTypeofObject bb && !(isNullJson bb) &&
          hasField bb ("x") && hasField bb ("y") &&
          hasField bb ("width") && hasField bb ("height")
      | none => false)

/-- One left-to-right pass of `formattedTranslation.replace(/\\n/g, '\n')`:
each two-character sequence backslash–n becomes a newline character. -/
def replaceEscN : List Char → List Char
  | '\\' :: 'n' :: rest => '\n' :: replaceEscN rest
  | c :: rest => c :: replaceEscN rest
  | [] => []

def normalizeNewlines (s : String) : String :=
  List.asString (replaceEscN s.data)

/-- The (validated) `TranslationResult` value returned to the app; the
blocks are kept as the raw parsed values, exactly as the source returns
`blocks` without further coercion. -/
structure TranslationResultE where
  translationBlocks : List Json
  formattedTranslation : String

/-- The validation and normalization stage of `translateImageContent`
applied to the parsed response (`src/services/geminiService.ts`,
lines 104–134): `Except.error` models a thrown `Error` with its message. -/
def translateValidate (parsedJson : Json) : Except String TranslationResultE :=
  if respStructOk parsedJson = false then
    Except.error
      ("API did not return the expected object structure with translationBlocks and formattedTranslation.")
  else
    match getField parsedJson ("translationBlocks"),
        getField parsedJson ("formattedTranslation") with
    | some (Json.arr blocks), some (Json.str ft) =>
      if blocks.all validBlockItem = false then
        Except.error ("The translated data within translationBlocks is malformed.")
      else Except.ok ⟨blocks, normalizeNewlines ft⟩
    | _, _ =>
      Except.error
        ("API did not return the expected object structure with translationBlocks and formattedTranslation.")

/-- Modelled from the claim: the rejection condition as C4 words it, in
which the four bounding-box fields must be present *as numbers*
(`"all four numeric fields x, y, width, height present"`). -/
def numFieldPresent (bb : Json) (key : String) : Bool :=
  match getField bb key with
  | some (Json.num _) => true
  | _ => false

/-- Modelled from the claim: a block that C4 says must be rejected. -/
def claimBlockBad (item : Json) : Bool :=
  !(hasField item ("originalText")) || !(hasField item ("translatedText")) ||
    !(match getField item ("boundingBox") with
      | some bb =>
        numFieldPresent bb ("x") && numFieldPresent bb ("y") &&
          numFieldPresent bb ("width") && numFieldPresent bb ("height")
      | none => false)

/-- Modelled from the claim: C4's full rejection condition — not an object,
or no `translationBlocks` array, or no `formattedTranslation` string, or
some block bad in the sense of `claimBlockBad`. -/
def claimRejects (j : Json) : Bool :=
  !(match j with
    | Json.obj _ => true
    | _ => false) ||
  !(match getField j ("translationBlocks") with
    | some (Json.arr _) => true
    | _ => false) ||
  !(match getField j ("formattedTranslation") with
    | some (Json.str _) => true
    | _ => false) ||
  (match getField j ("translationBlocks") with
    | some (Json.arr blocks) => blocks.any claimBlockBad
    | _ => false)

/-! ### Application state around the translation call
(`handleTranslate`, `src/unnamed/part_003`, lines 122–144) -/

structure AppState where
  translationResult : Option TranslationResultE
  error : Option String
  isLoading : Bool

/-- The net state transition of `handleTranslate` once the service call
resolves: the handler clears the result and error up front, then either
stores the new result or records the error message (which
`translateImageContent` wrapped in its catch clause); `finally` clears the
loading flag.  On error the translation result stays cleared — it is never
set to a new value. -/
def handleTranslateStep (_st : AppState)
    (outcome : Except String TranslationResultE) : AppState :=
  match outcome with
  | Except.ok r =>
    { translationResult := some r, error := none, isLoading := false }
  | Except.error e =>
    { translationResult := none,
      error := some (("Failed to get translation from AI: ") ++ e),
      isLoading := false }

/-- Modelled from the spec (§4.2, step 2): one step of the specified greedy
wrap — "for each word in input order, try appending it (space-separated) to
the current line; if the extended line's measured width is still under the
max width OR the current line is empty, accept the extension; otherwise
commit the current line to the output and start a new line with just that
word". -/
def specGreedyWrapStep (m : String → ℚ) (maxWidth : ℚ)
    (acc : List String × String) (word : String) : List String × String :=
  let extended := if acc.2 = "" then word else acc.2 ++ " " ++ word
  if m extended < maxWidth ∨ acc.2 = "" then (acc.1, extended)
  else (acc.1 ++ [acc.2], word)

/-- Modelled from the spec (§4.2, step 2): the specified greedy wrap —
start an empty line, process each word with `specGreedyWrapStep`, and
"after all words, commit any non-empty trailing line". -/
def specGreedyWrap (m : String → ℚ) (text : String) (maxWidth : ℚ) :
    List String :=
  if text = "" then []
  else
    let fin := (splitSpaces text).foldl (specGreedyWrapStep m maxWidth) ([], "")
    if fin.2 = "" then fin.1 else fin.1 ++ [fin.2]

/-- A parsed response block whose bounding box carries `x` as a string:
every field C4 checks is *present*, but `x` is not numeric. -/
def cexBlock : Json :=
  Json.obj
    [(("originalText"), Json.str ("o")),
     (("translatedText"), Json.str ("t")),
     (("boundingBox"),
       Json.obj
         [(("x"), Json.str ("oops")),
          (("y"), Json.num 0),
          (("width"), Json.num 0),
          (("height"), Json.num 0)])]

/-- A parsed response containing `cexBlock`. -/
def cexResponse : Json :=
  Json.obj
    [(("translationBlocks"), Json.arr [cexBlock]),
     (("formattedTranslation"), Json.str ("f"))]

/-- A well-formed parsed response whose formatted string contains a literal
backslash-n escape. -/
def goodResponse : Json :=
  Json.obj
    [(("translationBlocks"), Json.arr []),
     (("formattedTranslation"), Json.str ("a\\nb"))]

/-! ### Round trip between `splitSpaces` and space-joining -/

theorem splitCh_ne_nil (l : List Char) : splitCh l ≠ [] := by
  induction l with
  | nil => simp [splitCh]
  | cons c cs ih =>
    rw [splitCh]
    split
    · simp
    · cases h : splitCh cs with
      | nil => exact absurd h ih
      | cons w ws => simp

theorem joinCh_splitCh (l : List Char) : joinCh (splitCh l) = l := by
  induction l with
  | nil => rfl
  | cons c cs ih =>
    rw [splitCh]
    split
    · rename_i hc
      subst hc
      cases h : splitCh cs with
      | nil => exact absurd h (splitCh_ne_nil cs)
      | cons w ws =>
        rw [h] at ih
        simpa [joinCh] using ih
    · cases h : splitCh cs with
      | nil => exact absurd h (splitCh_ne_nil cs)
      | cons w ws =>
        rw [h] at ih
        cases ws with
        | nil => simpa [joinCh] using congrArg (c :: ·) ih
        | cons v vs => simpa [joinCh] using congrArg (c :: ·) ih

theorem data_asString (l : List Char) : (List.asString l).data = l := rfl

theorem sjoin_map_asString (ws : List (List Char)) :
    sjoin (ws.map List.asString) = List.asString (joinCh ws) := by
  induction ws with
  | nil => rfl
  | cons w vs ih =>
    cases vs with
    | nil => rfl
    | cons v vs' =>
      apply String.ext
      have hdata : (sjoin (List.map List.asString (v :: vs'))).data =
          joinCh (v :: vs') := congrArg String.data ih
      simp [sjoin, joinCh, String.data_append, data_asString]
      simpa using hdata

theorem sjoin_splitSpaces (s : String) : sjoin (splitSpaces s) = s := by
  apply String.ext
  rw [splitSpaces, sjoin_map_asString, joinCh_splitCh, data_asString]

/-! ### Algebra of `sjoin` -/

theorem string_ne_empty_iff (s : String) : s ≠ "" ↔ s.data ≠ [] := by
  constructor
  · intro h hdata
    exact h (String.ext hdata)
  · intro h he
    exact h (congrArg String.data he)

theorem append_ne_empty_left (s t : String) (h : s ≠ "") : s ++ t ≠ "" := by
  rw [string_ne_empty_iff] at h ⊢
  rw [String.data_append]
  simp [h]

theorem sjoin_cons_ne (x : String) (xs : List String) (h : xs ≠ []) :
    sjoin (x :: xs) = x ++ " " ++ sjoin xs := by
  cases xs with
  | nil => exact absurd rfl h
  | cons y ys => rfl

theorem sjoin_append_singleton (l : List String) (a : String) (h : l ≠ []) :
    sjoin (l ++ [a]) = sjoin l ++ " " ++ a := by
  induction l with
  | nil => exact absurd rfl h
  | cons x xs ih =>
    cases xs with
    | nil => rfl
    | cons y ys =>
      rw [List.cons_append, sjoin_cons_ne x ((y :: ys) ++ [a]) (by simp),
        sjoin_cons_ne x (y :: ys) (by simp), ih (by simp)]
      simp [String.append_assoc]

theorem sjoin_merge (l : List String) (a b : String) (r : List String) :
    sjoin (l ++ (a ++ " " ++ b) :: r) = sjoin (l ++ a :: b :: r) := by
  induction l with
  | nil =>
    cases r with
    | nil => rfl
    | cons z zs =>
      rw [List.nil_append, List.nil_append,
        sjoin_cons_ne _ (z :: zs) (by simp),
        sjoin_cons_ne a (b :: z :: zs) (by simp),
        sjoin_cons_ne b (z :: zs) (by simp)]
      simp [String.append_assoc]
  | cons x xs ih =>
    rw [List.cons_append, List.cons_append,
      sjoin_cons_ne x (xs ++ (a ++ " " ++ b) :: r) (by simp),
      sjoin_cons_ne x (xs ++ a :: b :: r) (by simp), ih]

/-! ### Content preservation of the greedy wrap -/

theorem wrap_content (m : String → ℚ) (maxWidth : ℚ) :
    ∀ ws : List String, ∀ lines : List String, ∀ cur : String,
      (∀ w ∈ ws, w ≠ "") → (cur = "" → lines = []) →
      sjoin (flushLines (ws.foldl (wrapStep m maxWidth) (lines, cur))) =
        sjoin (flushLines (lines, cur) ++ ws) := by
  intro ws
  induction ws with
  | nil => intro lines cur _ _; simp
  | cons w ws' ih =>
    intro lines cur hne hcur
    have hw : w ≠ "" := hne w (List.mem_cons_self ..)
    have hws' : ∀ v ∈ ws', v ≠ "" := fun v hv => hne v (List.mem_cons_of_mem _ hv)
    rw [List.foldl_cons]
    by_cases hc : cur = ""
    · have hlines : lines = [] := hcur hc
      subst hlines
      have hstep : wrapStep m maxWidth ([], cur) w = ([], w) := by
        simp [wrapStep, hc]
      rw [hstep, ih [] w hws' (fun h => absurd h hw)]
      simp [flushLines, hc, hw]
    · rw [show wrapStep m maxWidth (lines, cur) w =
          if m (cur ++ " " ++ w) < maxWidth then (lines, cur ++ " " ++ w)
          else (lines ++ [cur], w) by simp [wrapStep, hc]]
      by_cases hfit : m (cur ++ " " ++ w) < maxWidth
      · rw [if_pos hfit,
          ih lines (cur ++ " " ++ w) hws'
            (fun h => absurd h (append_ne_empty_left _ _
              (append_ne_empty_left _ _ hc))),
          show flushLines (lines, cur ++ " " ++ w) =
            lines ++ [cur ++ " " ++ w] by
              simp [flushLines,
                append_ne_empty_left _ _ (append_ne_empty_left _ _ hc)],
          show flushLines (lines, cur) = lines ++ [cur] by simp [flushLines, hc]]
        have := sjoin_merge lines cur w ws'
        simpa using this
      · rw [if_neg hfit, ih (lines ++ [cur]) w hws' (fun h => absurd h hw),
          show flushLines (lines ++ [cur], w) = lines ++ [cur] ++ [w] by
            simp [flushLines, hw],
          show flushLines (lines, cur) = lines ++ [cur] by simp [flushLines, hc]]
        simp

/-! ### The wrap never splits a word: lines are joins of consecutive words -/

theorem wrap_groups (m : String → ℚ) (maxWidth : ℚ) :
    ∀ ws lines cur, ∀ gdone : List (List String), ∀ gcur : List String,
      (∀ w ∈ ws, w ≠ "") →
      lines = gdone.map sjoin →
      (∀ g ∈ gdone, g ≠ []) →
      ((cur = "" ∧ gcur = []) ∨ (gcur ≠ [] ∧ cur = sjoin gcur ∧ cur ≠ "")) →
      ∃ groups : List (List String),
        flushLines (ws.foldl (wrapStep m maxWidth) (lines, cur)) =
            groups.map sjoin ∧
          groups.flatten = gdone.flatten ++ gcur ++ ws ∧
          ∀ g ∈ groups, g ≠ [] := by
  intro ws
  induction ws with
  | nil =>
    intro lines cur gdone gcur _ hmap hgne hinv
    rcases hinv with ⟨hc, hg⟩ | ⟨hg, hcur, hc⟩
    · exact ⟨gdone, by simp [flushLines, hc, hmap], by simp [hg], hgne⟩
    · refine ⟨gdone ++ [gcur], ?_, by simp, ?_⟩
      · rw [hcur] at hc
        simp [flushLines, hc, hmap, hcur]
      · intro g hgmem
        rcases List.mem_append.1 hgmem with h | h
        · exact hgne g h
        · simp at h; subst h; exact hg
  | cons w ws' ih =>
    intro lines cur gdone gcur hne hmap hgne hinv
    have hw : w ≠ "" := hne w (List.mem_cons_self ..)
    have hws' : ∀ v ∈ ws', v ≠ "" := fun v hv => hne v (List.mem_cons_of_mem _ hv)
    rw [List.foldl_cons]
    rcases hinv with ⟨hc, hg⟩ | ⟨hg, hcur, hc⟩
    · have hstep : wrapStep m maxWidth (lines, cur) w = (lines, w) := by
        simp [wrapStep, hc]
      rw [hstep]
      obtain ⟨groups, h1, h2, h3⟩ :=
        ih lines w gdone [w] hws' hmap hgne (Or.inr ⟨by simp, rfl, hw⟩)
      exact ⟨groups, h1, by simpa [hg] using h2, h3⟩
    · rw [show wrapStep m maxWidth (lines, cur) w =
          if m (cur ++ " " ++ w) < maxWidth then (lines, cur ++ " " ++ w)
          else (lines ++ [cur], w) by simp [wrapStep, hc]]
      by_cases hfit : m (cur ++ " " ++ w) < maxWidth
      · rw [if_pos hfit]
        obtain ⟨groups, h1, h2, h3⟩ :=
          ih lines (cur ++ " " ++ w) gdone (gcur ++ [w]) hws' hmap hgne
            (Or.inr ⟨by simp, by rw [sjoin_append_singleton gcur w hg, hcur],
              append_ne_empty_left _ _ (append_ne_empty_left _ _ hc)⟩)
        exact ⟨groups, h1, by simpa using h2, h3⟩
      · rw [if_neg hfit]
        obtain ⟨groups, h1, h2, h3⟩ :=
          ih (lines ++ [cur]) w (gdone ++ [gcur]) [w] hws'
            (by simp [hmap, hcur])
            (by intro g hgmem
                rcases List.mem_append.1 hgmem with h | h
                · exact hgne g h
                · simp at h; subst h; exact hg)
            (Or.inr ⟨by simp, rfl, hw⟩)
        exact ⟨groups, h1, by simpa using h2, h3⟩

theorem mem_flushLines_foldl (m : String → ℚ) (maxWidth : ℚ) (x : String) :
    ∀ ws : List String, ∀ acc : List String × String,
      x ∈ acc.1 → x ∈ flushLines (ws.foldl (wrapStep m maxWidth) acc) := by
  intro ws
  induction ws with
  | nil =>
    intro acc hx
    unfold flushLines
    split
    · exact hx
    · exact List.mem_append_left _ hx
  | cons v ws' ih =>
    intro acc hx
    rw [List.foldl_cons]
    apply ih
    simp only [wrapStep]
    split <;> split <;>
      first
        | exact hx
        | exact List.mem_append_left _ hx

theorem wide_stays (m : String → ℚ) (maxWidth : ℚ) (w : String)
    (hm : MonoMeasure m) (hw : w ≠ "") (hwide : maxWidth ≤ m w) :
    ∀ ws : List String, ∀ acc : List String × String,
      acc.2 = w → w ∈ flushLines (ws.foldl (wrapStep m maxWidth) acc) := by
  intro ws acc hacc
  cases ws with
  | nil =>
    simp only [List.foldl_nil]
    unfold flushLines
    rw [hacc]
    rw [if_neg hw]
    exact List.mem_append_right _ (List.mem_singleton.2 rfl)
  | cons v ws' =>
    rw [List.foldl_cons]
    have hnotfit : ¬ m (w ++ " " ++ v) < maxWidth := by
      have h1 : m w ≤ m (w ++ " ") := (hm w (" ")).1
      have h2 : m (w ++ " ") ≤ m (w ++ " " ++ v) := (hm (w ++ " ") v).1
      exact not_lt.2 (le_trans hwide (le_trans h1 h2))
    have hstep : wrapStep m maxWidth acc v = (acc.1 ++ [w], v) := by
      unfold wrapStep
      rw [hacc, if_neg hw, if_neg (not_or.mpr ⟨hnotfit, hw⟩)]
    rw [hstep]
    exact mem_flushLines_foldl m maxWidth w ws' _
      (List.mem_append_right _ (List.mem_singleton.2 rfl))

theorem wide_own_line (m : String → ℚ) (maxWidth : ℚ) (w : String)
    (hm : MonoMeasure m) (hw : w ≠ "") (hwide : maxWidth ≤ m w) :
    ∀ ws : List String, ∀ acc : List String × String,
      w ∈ ws → w ∈ flushLines (ws.foldl (wrapStep m maxWidth) acc) := by
  intro ws
  induction ws with
  | nil => intro acc h; exact absurd h (List.not_mem_nil w)
  | cons v ws' ih =>
    intro acc hmem
    rcases List.mem_cons.1 hmem with heq | htail
    · subst heq
      rw [List.foldl_cons]
      by_cases hc : acc.2 = ""
      · have hstep : wrapStep m maxWidth acc w = (acc.1, w) := by
          simp [wrapStep, hc]
        rw [hstep]
        exact wide_stays m maxWidth w hm hw hwide ws' _ rfl
      · have hnotfit : ¬ m (acc.2 ++ " " ++ w) < maxWidth := by
          have h2 : m w ≤ m (acc.2 ++ " " ++ w) := (hm (acc.2 ++ " ") w).2
          exact not_lt.2 (le_trans hwide h2)
        have hstep : wrapStep m maxWidth acc w = (acc.1 ++ [acc.2], w) := by
          unfold wrapStep
          rw [if_neg hc, if_neg (not_or.mpr ⟨hnotfit, hc⟩)]
        rw [hstep]
        exact wide_stays m maxWidth w hm hw hwide ws' _ rfl
    · rw [List.foldl_cons]
      exact ih _ htail

theorem fitFromAux_sound (m : Int → String → ℚ) (text : String)
    (width height : ℚ) :
    ∀ fuel : ℕ, ∀ fontSize s : Int,
      fitFromAux m text width height fuel fontSize = some s →
      8 ≤ s ∧ s ≤ fontSize ∧ fitsAt m text width height s := by
  intro fuel
  induction fuel with
  | zero => intro fontSize s h; exact absurd h (by simp [fitFromAux])
  | succ fuel ih =>
    intro fontSize s h
    rw [fitFromAux] at h
    by_cases h8 : 8 ≤ fontSize
    · rw [if_pos h8] at h
      by_cases hfit : fitsAt m text width height fontSize
      · rw [if_pos hfit] at h
        obtain rfl : fontSize = s := by simpa using h
        exact ⟨h8, le_refl _, hfit⟩
      · rw [if_neg hfit] at h
        obtain ⟨hs8, hle, hf⟩ := ih (fontSize - 1) s h
        exact ⟨hs8, by omega, hf⟩
    · rw [if_neg h8] at h
      exact absurd h (by simp)

theorem fitFromAux_complete (m : Int → String → ℚ) (text : String)
    (width height : ℚ) :
    ∀ fuel : ℕ, ∀ fontSize s : Int,
      8 ≤ s → s ≤ fontSize → fitsAt m text width height s →
      (fontSize - 7).toNat ≤ fuel →
      ∃ t, fitFromAux m text width height fuel fontSize = some t ∧ s ≤ t := by
  intro fuel
  induction fuel with
  | zero => intro fontSize s h8 hle _ hfuel; omega
  | succ fuel ih =>
    intro fontSize s h8 hle hfit hfuel
    have hfs8 : 8 ≤ fontSize := le_trans h8 hle
    rw [fitFromAux, if_pos hfs8]
    by_cases htop : fitsAt m text width height fontSize
    · exact ⟨fontSize, by rw [if_pos htop], hle⟩
    · have hne : s ≠ fontSize := fun h => htop (h ▸ hfit)
      obtain ⟨t, ht, hst⟩ :=
        ih (fontSize - 1) s h8 (by omega) hfit (by omega)
      exact ⟨t, by rw [if_neg htop]; exact ht, hst⟩

theorem fitsAt_mono (m : Int → String → ℚ) (text : String) (width : ℚ)
    {h1 h2 : ℚ} (s : Int) (hf : fitsAt m text width h1 s) (hle : h1 ≤ h2) :
    fitsAt m text width h2 s :=
  le_trans hf hle

/-- C3: monotonic shrink — for a fixed text, box width and text-measuring
function, the font size actually used by `drawTextAndFit` (including the
fallback size 8) is non-decreasing in the box height: for any two heights
`h1 ≤ h2`, the size chosen at `h1` is at most the size chosen at `h2`. -/
theorem drawTextAndFit_fontSize_mono (m : Int → String → ℚ) (text : String)
    (x y width : ℚ) {h1 h2 : ℚ} (hle : h1 ≤ h2) :
    (drawTextAndFit m text x y width h1).fontSize ≤
      (drawTextAndFit m text x y width h2).fontSize := by
  unfold drawTextAndFit
  cases e1 : fitFrom m text width h1 ⌊h1 / 2⌋ with
  | none =>
    cases e2 : fitFrom m text width h2 ⌊h2 / 2⌋ with
    | none => simp
    | some s2 =>
      obtain ⟨hs8, _, _⟩ := fitFromAux_sound m text width h2 _ _ _ e2
      simpa using hs8
  | some s1 =>
    obtain ⟨hs8, hsle, hfits⟩ := fitFromAux_sound m text width h1 _ _ _ e1
    have hfloor : (⌊h1 / 2⌋ : Int) ≤ ⌊h2 / 2⌋ :=
      Int.floor_le_floor (by linarith)
    obtain ⟨t, ht, hst⟩ :=
      fitFromAux_complete m text width h2 _ ⌊h2 / 2⌋ s1 hs8
        (le_trans hsle hfloor) (fitsAt_mono m text width s1 hfits hle)
        (le_refl _)
    have ht' : fitFrom m text width h2 ⌊h2 / 2⌋ = some t := ht
    rw [ht']
    simpa using hst

/-- C6: the text-fitting routine is total — modelled as a total function it
yields a result for every text, box and measuring function (the candidate
font size strictly decreases from `⌊height/2⌋` towards the floor of 8, so
the search terminates), the font size used is never below 8, and clipping
happens only in the worst case, at font size 8. -/
theorem drawTextAndFit_floor (m : Int → String → ℚ) (text : String)
    (x y width height : ℚ) :
    8 ≤ (drawTextAndFit m text x y width height).fontSize ∧
      ((drawTextAndFit m text x y width height).clipped = false ∨
        (drawTextAndFit m text x y width height).fontSize = 8) := by
  unfold drawTextAndFit
  cases e : fitFrom m text width height ⌊height / 2⌋ with
  | none => simp
  | some s =>
    obtain ⟨hs8, _, _⟩ := fitFromAux_sound m text width height _ _ _ e
    simp [hs8]

/-- Witness for C3 at a concrete input: heights 10 and 100, a measuring
function that is constantly 0, text `"hi"`, width 100. -/
theorem drawTextAndFit_fontSize_mono_witness :
    (10 : ℚ) ≤ 100 ∧
      (drawTextAndFit (fun _ _ => 0) ("hi") 0 0 100 10).fontSize ≤
        (drawTextAndFit (fun _ _ => 0) ("hi") 0 0 100 100).fontSize :=
  ⟨by norm_num,
    drawTextAndFit_fontSize_mono (fun _ _ => 0) ("hi") 0 0 100 (by norm_num)⟩

/-- C8: popover placement — for every hovered block, when
`y + height ≤ 70` the popover anchors below the block
(`top = y + height`, translated 8 px down), and when `y + height > 70` it
anchors above (`top = y`, translated up by its own height plus 8 px). -/
theorem popover_placement (b : BoundingBox) :
    (b.y + b.height ≤ 70 →
      handleMouseEnterStyle b = ⟨b.y + b.height, PopTransform.down8⟩) ∧
    (70 < b.y + b.height →
      handleMouseEnterStyle b = ⟨b.y, PopTransform.upOwnHeightPlus8⟩) := by
  constructor
  · intro h
    simp [handleMouseEnterStyle, not_lt.2 h]
  · intro h
    simp [handleMouseEnterStyle, h]

/-- Witness for C8 at the spec scenarios: a block with `y + height = 85`
anchors above, a block with `y + height = 40` anchors below. -/
theorem popover_placement_witness :
    handleMouseEnterStyle ⟨10, 45, 20, 40⟩ =
        ⟨45, PopTransform.upOwnHeightPlus8⟩ ∧
      handleMouseEnterStyle ⟨10, 10, 20, 30⟩ = ⟨40, PopTransform.down8⟩ := by
  constructor
  · exact (popover_placement ⟨10, 45, 20, 40⟩).2 (by norm_num)
  · have h := (popover_placement ⟨10, 10, 20, 30⟩).1 (by norm_num)
    norm_num at h
    exact h

theorem pct_component_bounds {v ref : ℚ} (hv : 0 ≤ v) (hvl : v ≤ 100)
    (href : 0 < ref) : 0 ≤ v / 100 * ref ∧ v / 100 * ref ≤ ref := by
  constructor
  · exact mul_nonneg (div_nonneg hv (by norm_num)) href.le
  · rw [div_mul_eq_mul_div, div_le_iff₀ (by norm_num : (0 : ℚ) < 100)]
    nlinarith

/-- Counterexample to C5 as stated: the box `{x := 150, y := 10,
width := -50, height := 10}` satisfies every hypothesis C5 lists
(`0 ≤ x`, `0 ≤ y`, `x + width ≤ 100`, `y + height ≤ 100`, positive
reference dimensions), yet its pixel x-coordinate, 150, exceeds the
reference width 100. -/
theorem pixel_conversion_counterexample :
    (0 : ℚ) ≤ 150 ∧ (0 : ℚ) ≤ 10 ∧ (150 : ℚ) + (-50) ≤ 100 ∧
      (10 : ℚ) + 10 ≤ 100 ∧ (0 : ℚ) < 100 ∧
      ¬((toPixelRect ⟨150, 10, -50, 10⟩ 100 100).x ≤ 100) := by
  refine ⟨by norm_num, by norm_num, by norm_num, by norm_num, by norm_num, ?_⟩
  simp only [toPixelRect]
  norm_num

/-- C5 (amended: the box must also have non-negative width and height):
`toPixelRect` computes `pixelX = (x/100) * refWidth` and analogously for
the other three components; for every box with `0 ≤ x, y, width, height`,
`x + width ≤ 100`, `y + height ≤ 100` and positive reference dimensions,
all four pixel values lie within `[0, refDimension]`; and the box
`{x := 10, y := 10, width := 30, height := 10}` against a 1000×500
reference yields the pixel rectangle at `(100, 50)` with size
`(300, 50)`. -/
theorem pixel_conversion_in_range :
    (∀ (b : BoundingBox) (refWidth refHeight : ℚ),
      0 ≤ b.x → 0 ≤ b.y → 0 ≤ b.width → 0 ≤ b.height →
      b.x + b.width ≤ 100 → b.y + b.height ≤ 100 →
      0 < refWidth → 0 < refHeight →
      (0 ≤ (toPixelRect b refWidth refHeight).x ∧
        (toPixelRect b refWidth refHeight).x ≤ refWidth) ∧
      (0 ≤ (toPixelRect b refWidth refHeight).y ∧
        (toPixelRect b refWidth refHeight).y ≤ refHeight) ∧
      (0 ≤ (toPixelRect b refWidth refHeight).width ∧
        (toPixelRect b refWidth refHeight).width ≤ refWidth) ∧
      (0 ≤ (toPixelRect b refWidth refHeight).height ∧
        (toPixelRect b refWidth refHeight).height ≤ refHeight)) ∧
    toPixelRect ⟨10, 10, 30, 10⟩ 1000 500 = ⟨100, 50, 300, 50⟩ := by
  constructor
  · intro b refWidth refHeight hx hy hw hh hxw hyh hrw hrh
    have hx100 : b.x ≤ 100 := by linarith
    have hy100 : b.y ≤ 100 := by linarith
    have hw100 : b.width ≤ 100 := by linarith
    have hh100 : b.height ≤ 100 := by linarith
    exact ⟨pct_component_bounds hx hx100 hrw,
      pct_component_bounds hy hy100 hrh,
      pct_component_bounds hw hw100 hrw,
      pct_component_bounds hh hh100 hrh⟩
  · simp only [toPixelRect]
    norm_num

/-- Witness for C5's amended universal part at the spec scenario box. -/
theorem pixel_conversion_in_range_witness :
    (0 ≤ (toPixelRect ⟨10, 10, 30, 10⟩ 1000 500).x ∧
      (toPixelRect ⟨10, 10, 30, 10⟩ 1000 500).x ≤ 1000) ∧
    (0 ≤ (toPixelRect ⟨10, 10, 30, 10⟩ 1000 500).y ∧
      (toPixelRect ⟨10, 10, 30, 10⟩ 1000 500).y ≤ 500) ∧
    (0 ≤ (toPixelRect ⟨10, 10, 30, 10⟩ 1000 500).width ∧
      (toPixelRect ⟨10, 10, 30, 10⟩ 1000 500).width ≤ 1000) ∧
    (0 ≤ (toPixelRect ⟨10, 10, 30, 10⟩ 1000 500).height ∧
      (toPixelRect ⟨10, 10, 30, 10⟩ 1000 500).height ≤ 500) :=
  pixel_conversion_in_range.1 ⟨10, 10, 30, 10⟩ 1000 500 (by norm_num)
    (by norm_num) (by norm_num) (by norm_num) (by norm_num) (by norm_num)
    (by norm_num) (by norm_num)

/-- C7: degenerate-box skip — in the export path, a block whose converted
pixel width or height is below 1 produces no drawing command at all; any
other block produces the opaque background fill followed by its fitted
text, and the per-block command lists are concatenated in array order. -/
theorem export_skips_degenerate (m : Int → String → ℚ)
    (canvasWidth canvasHeight : ℚ) (block : TranslatedBlockE)
    (blocks : List TranslatedBlockE) :
    ((toPixelRect block.boundingBox canvasWidth canvasHeight).width < 1 ∨
        (toPixelRect block.boundingBox canvasWidth canvasHeight).height < 1 →
      renderBlock m canvasWidth canvasHeight block = []) ∧
    (¬((toPixelRect block.boundingBox canvasWidth canvasHeight).width < 1 ∨
        (toPixelRect block.boundingBox canvasWidth canvasHeight).height < 1) →
      renderBlock m canvasWidth canvasHeight block =
        DrawOp.fillRect ("#111827")
            (toPixelRect block.boundingBox canvasWidth canvasHeight).x
            (toPixelRect block.boundingBox canvasWidth canvasHeight).y
            (toPixelRect block.boundingBox canvasWidth canvasHeight).width
            (toPixelRect block.boundingBox canvasWidth canvasHeight).height ::
          (drawTextAndFit m block.translatedText
              (toPixelRect block.boundingBox canvasWidth canvasHeight).x
              (toPixelRect block.boundingBox canvasWidth canvasHeight).y
              (toPixelRect block.boundingBox canvasWidth canvasHeight).width
              (toPixelRect block.boundingBox canvasWidth canvasHeight).height).drawn.map
            fun d => DrawOp.fillText d.text d.startX d.drawY
              (drawTextAndFit m block.translatedText
                (toPixelRect block.boundingBox canvasWidth canvasHeight).x
                (toPixelRect block.boundingBox canvasWidth canvasHeight).y
                (toPixelRect block.boundingBox canvasWidth canvasHeight).width
                (toPixelRect block.boundingBox canvasWidth canvasHeight).height).clipped) ∧
    exportOps m canvasWidth canvasHeight (block :: blocks) =
      renderBlock m canvasWidth canvasHeight block ++
        exportOps m canvasWidth canvasHeight blocks := by
  refine ⟨?_, ?_, ?_⟩
  · intro h
    simp only [renderBlock]
    rw [if_pos h]
  · intro h
    simp only [renderBlock]
    rw [if_neg h]
  · simp [exportOps]

/-- Witness for C7: with a 100×100 canvas, a block of zero percentage
width is skipped, while a full-box block is filled and drawn. -/
theorem export_skips_degenerate_witness :
    renderBlock (fun _ _ => 0) 100 100 ⟨("o"), ("t"), ⟨0, 0, 0, 50⟩⟩ = [] ∧
      exportOps (fun _ _ => 0) 100 100 [⟨("o"), ("t"), ⟨0, 0, 0, 50⟩⟩] =
        renderBlock (fun _ _ => 0) 100 100 ⟨("o"), ("t"), ⟨0, 0, 0, 50⟩⟩ ++
          exportOps (fun _ _ => 0) 100 100 [] := by
  constructor
  · exact (export_skips_degenerate (fun _ _ => 0) 100 100
      ⟨("o"), ("t"), ⟨0, 0, 0, 50⟩⟩ []).1
      (by simp only [toPixelRect]; norm_num)
  · exact (export_skips_degenerate (fun _ _ => 0) 100 100
      ⟨("o"), ("t"), ⟨0, 0, 0, 50⟩⟩ []).2.2

theorem fitFrom_eq_some_of_fits {m : Int → String → ℚ} {text : String}
    {width height : ℚ} {fontSize : Int} (h8 : 8 ≤ fontSize)
    (hfit : fitsAt m text width height fontSize) :
    fitFrom m text width height fontSize = some fontSize := by
  unfold fitFrom
  rw [show (fontSize - 7).toNat = (fontSize - 8).toNat + 1 by omega,
    fitFromAux, if_pos h8, if_pos hfit]

/-- C1 evaluated at a failing input (text `"hi"`, box `(0, 0, 100, 100)`,
measuring function constantly 0): the first candidate font size 50 is
accepted with one wrapped line, so the claimed centered layout would place
the line at `startY + 0 * lineHeight = (100 - 60) / 2 = 20`, but the code
draws it at `y + 0 * lineHeight = 0` — the computed `startY` is never
used, and the fallback branch draws at the same uncentered coordinate. -/
theorem draw_ignores_vertical_centering :
    (drawTextAndFit (fun _ _ => 0) ("hi") 0 0 100 100).drawn =
        [⟨("hi"), 50, 0⟩] ∧
      (0 : ℚ) + (100 - (1 : ℚ) * ((50 : ℚ) * (6 / 5))) / 2 = 20 ∧
      (0 : ℚ) ≠ 20 := by
  have hlines : getWrappedLines (fun _ => (0 : ℚ)) ("hi") (100 - 4) =
      [("hi")] := by
    rw [getWrappedLines, if_neg (by decide),
      show splitSpaces ("hi") = [("hi")] from by decide]
    norm_num [wrapStep, flushLines]
    decide
  have hfit : fitsAt (fun _ _ => (0 : ℚ)) ("hi") 100 100 50 := by
    rw [fitsAt, hlines]
    norm_num
  have hsome : fitFrom (fun _ _ => (0 : ℚ)) ("hi") 100 100 ⌊(100 : ℚ) / 2⌋ =
      some 50 := by
    rw [show (⌊(100 : ℚ) / 2⌋ : ℤ) = 50 from by norm_num]
    exact fitFrom_eq_some_of_fits (by norm_num) hfit
  refine ⟨?_, by norm_num, by norm_num⟩
  rw [drawTextAndFit, hsome]
  simp only [layoutLines, hlines, layoutLinesFrom]
  norm_num

/-- Counterexample to C2 as stated: with the measuring function that gives
`"a"` width 100 and every other string width 10, and max width 50, the
word `"a"` measures at least the max width yet the wrap of `"a b"` puts it
on a shared line `"a b"` — so the wide-word clause fails for an arbitrary
(non-monotone) text-measuring function. -/
theorem wide_word_not_own_line :
    50 ≤ (fun s => if s = ("a") then (100 : ℚ) else 10) ("a") ∧
      ("a") ∈ splitSpaces ("a b") ∧
      getWrappedLines (fun s => if s = ("a") then (100 : ℚ) else 10)
          ("a b") 50 = [("a b")] ∧
      ("a") ∉ getWrappedLines (fun s => if s = ("a") then (100 : ℚ) else 10)
          ("a b") 50 := by
  have heval : getWrappedLines (fun s => if s = ("a") then (100 : ℚ) else 10)
      ("a b") 50 = [("a b")] := by
    rw [getWrappedLines, if_neg (by decide),
      show splitSpaces ("a b") = [("a"), ("b")] from by decide]
    simp only [List.foldl_cons, List.foldl_nil, wrapStep]
    norm_num [flushLines, show ("a" : String) ++ (" ") ++ ("b") = ("a b") from rfl,
      eq_false (show ¬(("a" : String) = ("")) from by decide),
      eq_false (show ¬(("a b" : String) = ("a")) from by decide),
      eq_false (show ¬(("a b" : String) = ("")) from by decide)]
  refine ⟨by norm_num, by decide, heval, ?_⟩
  rw [heval]
  decide

/-- C2 (amended): `getWrappedLines` coincides with the greedy algorithm as
the spec words it (`specGreedyWrap`); whenever the space-split words are
all non-empty, the output lines are exactly the space-joins of a partition
of the word sequence into consecutive non-empty groups — so no word is
ever split across two lines, dropped, duplicated or reordered; and the
wide-word clause holds for measuring functions that are monotone under
concatenation: a non-empty word measuring at least the max width occupies
its own output line. -/
theorem greedy_wrap_amended (m : String → ℚ) (maxWidth : ℚ) (text : String) :
    getWrappedLines m text maxWidth = specGreedyWrap m text maxWidth ∧
    ((∀ w ∈ splitSpaces text, w ≠ "") →
      ∃ groups : List (List String),
        getWrappedLines m text maxWidth = groups.map sjoin ∧
          groups.flatten = splitSpaces text ∧ ∀ g ∈ groups, g ≠ []) ∧
    (MonoMeasure m → ∀ w ∈ splitSpaces text, w ≠ "" → maxWidth ≤ m w →
      w ∈ getWrappedLines m text maxWidth) := by
  refine ⟨rfl, ?_, ?_⟩
  · intro hne
    by_cases ht : text = ""
    · subst ht
      exact absurd (hne ("") (by decide)) (by simp)
    · rw [getWrappedLines, if_neg ht]
      obtain ⟨groups, h1, h2, h3⟩ :=
        wrap_groups m maxWidth (splitSpaces text) [] ("") [] [] hne rfl
          (by simp) (Or.inl ⟨rfl, rfl⟩)
      exact ⟨groups, h1, by simpa using h2, h3⟩
  · intro hm w hw hwne hwide
    have ht : text ≠ "" := by
      intro h
      subst h
      have : w = "" := by
        have := hw
        simp [show splitSpaces ("") = [("")] from by decide] at this
        exact this
      exact hwne this
    rw [getWrappedLines, if_neg ht]
    exact wide_own_line m maxWidth w hm hwne hwide (splitSpaces text)
      ([], ("")) hw

/-- Witness for C2's amended clauses at a concrete input: string length as
the (monotone) measure, text `"aaaa b"`, max width 3 — the wide word
`"aaaa"` gets its own line. -/
theorem greedy_wrap_amended_witness :
    ("aaaa") ∈ getWrappedLines (fun s => (s.length : ℚ)) ("aaaa b") 3 := by
  refine (greedy_wrap_amended (fun s => (s.length : ℚ)) 3 ("aaaa b")).2.2
    ?_ ("aaaa") (by decide) (by decide) ?_
  · intro a b
    constructor
    · show (a.length : ℚ) ≤ (((a ++ b).length : ℕ) : ℚ)
      rw [String.length_append]
      push_cast
      have hb : (0 : ℚ) ≤ (b.length : ℚ) := by positivity
      linarith
    · show (b.length : ℚ) ≤ (((a ++ b).length : ℕ) : ℚ)
      rw [String.length_append]
      push_cast
      have ha : (0 : ℚ) ≤ (a.length : ℚ) := by positivity
      linarith
  · rw [show ("aaaa").length = 4 from rfl]
    norm_num

/-- C10: wrap preserves content — whenever the space-split words of the
text are all non-empty (no leading, trailing or consecutive spaces),
joining the wrapped lines back with single spaces yields exactly the
original text, for every measuring function and max width. -/
theorem wrap_preserves_content (m : String → ℚ) (maxWidth : ℚ)
    (text : String) (h : ∀ w ∈ splitSpaces text, w ≠ "") :
    sjoin (getWrappedLines m text maxWidth) = text := by
  by_cases ht : text = ""
  · subst ht
    rfl
  · rw [getWrappedLines, if_neg ht,
      wrap_content m maxWidth (splitSpaces text) [] ("") h (fun _ => rfl)]
    rw [show flushLines ([], ("")) = [] from rfl, List.nil_append]
    exact sjoin_splitSpaces text

/-- Witness for C10 at a concrete input. -/
theorem wrap_preserves_content_witness :
    sjoin (getWrappedLines (fun _ => (0 : ℚ)) ("a b") 50) = ("a b") :=
  wrap_preserves_content (fun _ => (0 : ℚ)) 50 ("a b") (by decide)

theorem lastDotPos_some_iff (l : List Char) :
    (∃ i, lastDotPos l = some i) ↔ ('.') ∈ l := by
  induction l with
  | nil => simp [lastDotPos]
  | cons c cs ih =>
    cases h : lastDotPos cs with
    | some j =>
      have hmem : ('.') ∈ cs := ih.1 ⟨j, h⟩
      exact iff_of_true ⟨j + 1, by rw [lastDotPos, h]⟩
        (List.mem_cons_of_mem c hmem)
    | none =>
      have hnm : ('.') ∉ cs := by
        intro hm
        obtain ⟨i, hi⟩ := ih.2 hm
        rw [h] at hi
        exact absurd hi (by simp)
      by_cases hc : c = '.'
      · subst hc
        exact iff_of_true ⟨0, by rw [lastDotPos, h, if_pos rfl]⟩
          (List.mem_cons_self ..)
      · refine iff_of_false ?_ ?_
        · intro ⟨i, hi⟩
          rw [lastDotPos, h, if_neg hc] at hi
          exact absurd hi (by simp)
        · intro hm
          rcases List.mem_cons.1 hm with h1 | h2
          · exact hc h1.symm
          · exact hnm h2

theorem take_lastDotPos :
    ∀ (l : List Char) (i : ℕ), lastDotPos l = some i →
      l.take i = ((l.reverse.dropWhile fun c => !(c = '.')).tail).reverse := by
  intro l
  induction l with
  | nil => intro i h; exact absurd h (by simp [lastDotPos])
  | cons c cs ih =>
    intro i h
    cases hcs : lastDotPos cs with
    | some j =>
      rw [lastDotPos, hcs] at h
      obtain rfl : j + 1 = i := by simpa using h
      have hmem : ('.') ∈ cs := (lastDotPos_some_iff cs).1 ⟨j, hcs⟩
      have hne : cs.reverse.dropWhile (fun c => !(c = '.')) ≠ [] := by
        rw [Ne, List.dropWhile_eq_nil_iff]
        push_neg
        exact ⟨'.', List.mem_reverse.2 hmem, by simp⟩
      rw [List.take_succ_cons, List.reverse_cons, List.dropWhile_append,
        if_neg (by simpa [List.isEmpty_iff] using hne)]
      cases hd : cs.reverse.dropWhile (fun c => !(c = '.')) with
      | nil => exact absurd hd hne
      | cons a as =>
        have hih := ih j hcs
        rw [hd] at hih
        simp only [List.tail_cons] at hih
        rw [List.cons_append, List.tail_cons, List.reverse_append]
        simp only [List.reverse_cons, List.reverse_nil, List.nil_append,
          List.singleton_append]
        rw [hih]
    | none =>
      rw [lastDotPos, hcs] at h
      by_cases hc : c = '.'
      · rw [if_pos hc] at h
        obtain rfl : (0 : ℕ) = i := by simpa using h
        subst hc
        have hnm : ('.') ∉ cs := by
          intro hm
          obtain ⟨i', hi'⟩ := (lastDotPos_some_iff cs).2 hm
          rw [hcs] at hi'
          exact absurd hi' (by simp)
        have hall : cs.reverse.dropWhile (fun c => !(c = '.')) = [] := by
          rw [List.dropWhile_eq_nil_iff]
          intro x hx
          have : x ≠ '.' := fun he => hnm (he ▸ List.mem_reverse.1 hx)
          simp [this]
        rw [List.take_zero, List.reverse_cons, List.dropWhile_append,
          if_pos (by simp [hall])]
        simp [List.dropWhile_cons]
      · rw [if_neg hc] at h
        exact absurd h (by simp)

/-- Counterexample to C9 as stated: for the dotless filename `"README"`
the export produces `"-translated.png"` (JavaScript `lastIndexOf` returns
`-1`, and `substring(0, -1)` yields the empty stem), not
`"README-translated.png"` — the original filename without an extension is
the name itself. -/
theorem download_name_dotless_counterexample :
    downloadFileName ("README") = ("-translated.png") ∧
      filenameStem ("README") ++ ("-translated.png") =
        ("README-translated.png") ∧
      downloadFileName ("README") ≠
        filenameStem ("README") ++ ("-translated.png") :=
  ⟨by decide, by decide, by decide⟩

/-- C9 (amended: restricted to filenames that contain a dot): for every
uploaded file whose name contains a `'.'`, the download filename equals
the part of the name before its last dot followed by the fixed suffix
`"-translated"` and the `".png"` extension. -/
theorem download_name_amended (name : String) (h : ('.') ∈ name.data) :
    downloadFileName name = filenameStem name ++ ("-translated.png") := by
  obtain ⟨i, hi⟩ := (lastDotPos_some_iff name.data).2 h
  rw [downloadFileName, hi]
  show List.asString (name.data.take i) ++ ("-translated.png") = _
  rw [filenameStem, if_pos h, take_lastDotPos name.data i hi]

/-- Witness for C9's amended claim at the filename `"photo.jpg"`. -/
theorem download_name_amended_witness :
    ('.') ∈ ("photo.jpg").data ∧
      downloadFileName ("photo.jpg") =
        filenameStem ("photo.jpg") ++ ("-translated.png") :=
  ⟨by decide, download_name_amended ("photo.jpg") (by decide)⟩

theorem respStructOk_true_iff (j : Json) :
    respStructOk j = true ↔
      (∃ bs, getField j ("translationBlocks") = some (Json.arr bs)) ∧
        (∃ s, getField j ("formattedTranslation") = some (Json.str s)) := by
  cases j with
  | obj fields =>
    rw [respStructOk]
    simp only [jsTypeofObject, isNullJson, hasField, Bool.not_false,
      Bool.true_and, Bool.and_eq_true, Option.isSome_iff_exists]
    cases hg1 : getField (Json.obj fields) ("translationBlocks") with
    | none => simp [hg1]
    | some t =>
      cases hg2 : getField (Json.obj fields) ("formattedTranslation") with
      | none => simp [hg1, hg2]
      | some u =>
        cases t <;> cases u <;>
          simp [hg1, hg2, isArrayJson, isStringJson]
  | null => simp [respStructOk, getField, jsTypeofObject, isNullJson]
  | bool b => simp [respStructOk, getField, jsTypeofObject]
  | num q => simp [respStructOk, getField, jsTypeofObject]
  | str s => simp [respStructOk, getField, jsTypeofObject]
  | arr elems => simp [respStructOk, getField, hasField, jsTypeofObject]

/-- Counterexample to C4 as stated: `cexResponse` carries a bounding box
whose `x` field is present but is a string, not a number — C4's condition
("all four numeric fields present") classifies it as an error, yet the
code only tests presence and returns the response as a success. -/
theorem response_validation_counterexample :
    claimRejects cexResponse = true ∧
      translateValidate cexResponse = Except.ok ⟨[cexBlock], ("f")⟩ :=
  ⟨rfl, rfl⟩

/-- C4 (amended: the four bounding-box fields are only checked for
*presence*, not for being numeric, and the returned formatted string is
the response's value with literal backslash-n escapes normalized): the
call errors exactly when the parsed response has no `translationBlocks`
array, or no `formattedTranslation` string, or some block fails the
presence checks of `validBlockItem`; a response passing the checks is
returned with its block list unchanged; and on error the displayed
translation result is cleared, never set to a new value. -/
theorem response_validation_amended (j : Json) :
    ((∃ e, translateValidate j = Except.error e) ↔
      (∀ bs, getField j ("translationBlocks") ≠ some (Json.arr bs)) ∨
      (∀ s, getField j ("formattedTranslation") ≠ some (Json.str s)) ∨
      (∃ bs, getField j ("translationBlocks") = some (Json.arr bs) ∧
        ∃ item ∈ bs, validBlockItem item = false)) ∧
    (∀ bs ft, getField j ("translationBlocks") = some (Json.arr bs) →
      getField j ("formattedTranslation") = some (Json.str ft) →
      (∀ item ∈ bs, validBlockItem item = true) →
      translateValidate j = Except.ok ⟨bs, normalizeNewlines ft⟩) ∧
    (∀ st : AppState, ∀ e : String, translateValidate j = Except.error e →
      (handleTranslateStep st (Except.error e)).translationResult = none) := by
  refine ⟨?_, ?_, fun _ _ _ => rfl⟩
  · by_cases hok : respStructOk j = true
    · obtain ⟨⟨bs, h1⟩, ⟨ft, h2⟩⟩ := (respStructOk_true_iff j).1 hok
      have hval : translateValidate j =
          if bs.all validBlockItem = false then
            Except.error
              ("The translated data within translationBlocks is malformed.")
          else Except.ok ⟨bs, normalizeNewlines ft⟩ := by
        rw [translateValidate, if_neg (by simp [hok])]
        simp only [h1, h2]
      by_cases hall : bs.all validBlockItem = true
      · apply iff_of_false
        · rintro ⟨e, he⟩
          rw [hval, if_neg (by simp [hall])] at he
          exact absurd he (by simp)
        · rintro (hd | hd | ⟨bs', hbs', item, hmem, hbad⟩)
          · exact hd bs h1
          · exact hd ft h2
          · rw [h1] at hbs'
            obtain rfl : bs = bs' := by simpa using hbs'
            exact absurd (List.all_eq_true.1 hall item hmem) (by simp [hbad])
      · have hfalse : bs.all validBlockItem = false := by
          cases hb : bs.all validBlockItem with
          | true => exact absurd hb hall
          | false => rfl
        apply iff_of_true
        · exact ⟨_, by rw [hval, if_pos hfalse]⟩
        · right; right
          refine ⟨bs, h1, ?_⟩
          have hnot : ¬ ∀ item ∈ bs, validBlockItem item = true := fun hforall =>
            hall (List.all_eq_true.2 hforall)
          push_neg at hnot
          obtain ⟨item, hmem, hne⟩ := hnot
          exact ⟨item, hmem, by simpa using hne⟩
    · have hfalse : respStructOk j = false := by
        cases hb : respStructOk j with
        | true => exact absurd hb hok
        | false => rfl
      apply iff_of_true
      · exact ⟨_, by rw [translateValidate, if_pos hfalse]⟩
      · have hnc : ¬((∃ bs, getField j ("translationBlocks") =
              some (Json.arr bs)) ∧
            (∃ s, getField j ("formattedTranslation") = some (Json.str s))) :=
          fun hc => hok ((respStructOk_true_iff j).2 hc)
        rw [not_and_or] at hnc
        rcases hnc with h | h
        · left
          push_neg at h
          exact h
        · right; left
          push_neg at h
          exact h
  · intro bs ft h1 h2 hall
    have hok : respStructOk j = true :=
      (respStructOk_true_iff j).2 ⟨⟨bs, h1⟩, ⟨ft, h2⟩⟩
    rw [translateValidate, if_neg (by simp [hok])]
    simp only [h1, h2]
    rw [if_neg (by simp [List.all_eq_true.2 hall])]

/-- Witness for C4's amended success path: a well-formed response with an
empty block list and a formatted string containing a literal backslash-n
is accepted and its formatted string is normalized to a real newline. -/
theorem response_validation_amended_witness :
    translateValidate goodResponse = Except.ok ⟨[], ("a\nb")⟩ := by
  have h := (response_validation_amended goodResponse).2.1 [] ("a\\nb")
    rfl rfl (fun item hmem => absurd hmem (List.not_mem_nil item))
  rw [show normalizeNewlines ("a\\nb") = ("a\nb") from by decide] at h
  exact h

end Tomeus
